import Mathlib

/-!
Verification of the cache-and-data-access optimization layer of RepoRover AI:
the Redis cache client (`RedisCache`), the cache middleware (`withCache`,
`getWithRevalidate`), the connection pool manager, the N+1 query detector and
the batch data loader.  Each JavaScript/TypeScript definition is shallowly
embedded as an executable Lean function; asynchronous code is embedded as an
interleaving machine stepping at its `await` points.
-/

set_option linter.unusedVariables false
set_option maxRecDepth 8192

namespace Spec2Proof

/-- Association-list lookup by key (first binding wins), modelling a JS Map get. -/
def alookup [DecidableEq κ] (k : κ) : List (κ × α) → Option α
  | [] => none
  | (k', v) :: rest => if k' = k then some v else alookup k rest

/-- Association-list update: replaces the first binding of the key in place,
appends a fresh binding otherwise (JS Map.set insertion-order semantics). -/
def aset [DecidableEq κ] (k : κ) (v : α) : List (κ × α) → List (κ × α)
  | [] => [(k, v)]
  | (k', v') :: rest => if k' = k then (k, v) :: rest else (k', v') :: aset k v rest

/-- Association-list removal of every binding of the key (JS Map delete). -/
def aerase [DecidableEq κ] (k : κ) : List (κ × α) → List (κ × α)
  | [] => []
  | (k', v') :: rest => if k' = k then aerase k rest else (k', v') :: aerase k rest

/-! ## The Redis cache client (src/lib/cache/redis.ts, `RedisCache`)

State of the single logical Redis database used by the cache client.  The
TypeScript client reaches it through ioredis with a uniform key prefix, which
is therefore dropped from the model.  Values are stored JSON-serialized; the
serialization round-trip is the identity on the abstract payload, so values
are modelled as the serialized strings themselves.  `now` is the wall-clock
instant an operation runs at; SETEX stores an absolute expiry `now + ttl` and
GET treats an entry past its expiry as absent (Redis lazy expiry). -/

structure RedisState where
  store : List (String × String × Int)
  tagSets : List (String × List String)
  hits : Nat
  misses : Nat
  setCount : Nat
  deleteCount : Nat
  errorCount : Nat
deriving Repr, DecidableEq

/-- The fresh cache database. -/
def RedisState.init : RedisState := ⟨[], [], 0, 0, 0, 0, 0⟩

namespace RedisCache

/-- Raw lookup of (value, absolute expiry) for a key, ignoring expiry. -/
def rawLookup (st : RedisState) (k : String) : Option (String × Int) :=
  alookup k st.store

/-- Redis GET with lazy expiry: an entry whose expiry has passed is absent. -/
def redisGet (st : RedisState) (now : Int) (k : String) : Option String :=
  match rawLookup st k with
  | some (v, e) => if now < e then some v else none
  | none => none

/-- Redis SETEX: fails on a non-positive ttl, otherwise stores the value with
absolute expiry `now + ttl`, overwriting any previous entry for the key. -/
def setex (st : RedisState) (now : Int) (k v : String) (ttl : Int) :
    Option RedisState :=
  if ttl ≤ 0 then none
  else some { st with store := aset k (v, now + ttl) st.store }

/-- Redis SADD of one member into the set stored at `setKey`. -/
def sadd (st : RedisState) (setKey member : String) : RedisState :=
  let cur := (alookup setKey st.tagSets).getD []
  if member ∈ cur then st
  else { st with tagSets := aset setKey (cur ++ [member]) st.tagSets }

/-- Redis SMEMBERS of the set stored at `setKey`. -/
def smembers (st : RedisState) (setKey : String) : List String :=
  (alookup setKey st.tagSets).getD []

/-- Redis DEL of one key: removes the entry. -/
def redisDel (st : RedisState) (k : String) : RedisState :=
  { st with store := aerase k st.store }

/-- Redis DEL of the set stored at `setKey`. -/
def delSet (st : RedisState) (setKey : String) : RedisState :=
  { st with tagSets := aerase setKey st.tagSets }

/-- The name of the Redis set that indexes the keys carrying a tag
(`tag:${tag}` in `addTagsToKey` and `invalidateTag`). -/
def tagKey (tag : String) : String := "tag:" ++ tag

theorem tagKey_inj {t t' : String} (h : tagKey t = tagKey t') : t = t' := by
  have hd := congrArg String.data h
  simp only [tagKey, String.data_append] at hd
  exact String.ext (List.append_cancel_left hd)

/-- RedisCache.get: GET the key, count a miss and return null when absent,
otherwise count a hit and return the parsed value. -/
def get (st : RedisState) (now : Int) (k : String) : Option String × RedisState :=
  match redisGet st now k with
  | none => (none, { st with misses := st.misses + 1 })
  | some v => (some v, { st with hits := st.hits + 1 })

/-- JavaScript `a || b` on an optional number: undefined and 0 are falsy and
fall through to the right operand. -/
def orFalsy (a : Option Int) (b : Int) : Int :=
  match a with
  | some t => if t = 0 then b else t
  | none => b

/-- The effective TTL computed by RedisCache.set:
`options?.ttl || this.config.ttl || 3600`. -/
def resolveTtl (optTtl cfgTtl : Option Int) : Int :=
  orFalsy optTtl (orFalsy cfgTtl 3600)

/-- RedisCache.addTagsToKey: SADD the cache key into the set `tag:${tag}` for
every tag, via one pipeline. -/
def addTagsToKey (st : RedisState) (k : String) (tags : List String) : RedisState :=
  tags.foldl (fun s t => sadd s (tagKey t) k) st

/-- RedisCache.set: SETEX the serialized value under the resolved TTL, then
add the tags when the list is non-empty and count the set; a store error is
caught, counted, and reported as a `false` return. -/
def set (cfgTtl : Option Int) (st : RedisState) (now : Int) (k v : String)
    (optTtl : Option Int) (tags : List String) : Bool × RedisState :=
  match setex st now k v (resolveTtl optTtl cfgTtl) with
  | none => (false, { st with errorCount := st.errorCount + 1 })
  | some st1 =>
    let st2 := if tags.isEmpty then st1 else addTagsToKey st1 k tags
    (true, { st2 with setCount := st2.setCount + 1 })

/-- RedisCache.invalidateTag: SMEMBERS of the tag set; if empty return 0,
otherwise pipeline a DEL of every member key and of the tag set itself, add
the member count to the delete statistic and return that count (the pipeline
results — how many DELs actually removed a live key — are ignored). -/
def invalidateTag (st : RedisState) (tag : String) : Nat × RedisState :=
  let keys := smembers st (tagKey tag)
  if keys.isEmpty then (0, st)
  else
    let st1 := keys.foldl redisDel st
    let st2 := delSet st1 (tagKey tag)
    (keys.length, { st2 with deleteCount := st2.deleteCount + keys.length })

/-- RedisCache.invalidateTags: invalidate each tag in turn, summing counts. -/
def invalidateTags (st : RedisState) (tags : List String) : Nat × RedisState :=
  tags.foldl (fun acc t =>
    let r := invalidateTag acc.2 t
    (acc.1 + r.1, r.2)) (0, st)

/-- RedisCache.getOrSet: await get and return the hit; on a miss await the
fetch (its eventual value is the `fetchVal` parameter), store it, and return
it.  The Bool output records whether fetchFn was invoked. -/
def getOrSet (cfgTtl : Option Int) (st : RedisState) (now : Int) (k : String)
    (fetchVal : String) (optTtl : Option Int) (tags : List String) :
    String × RedisState × Bool :=
  let r := get st now k
  match r.1 with
  | some v => (v, r.2, false)
  | none =>
    let s := set cfgTtl r.2 now k fetchVal optTtl tags
    (fetchVal, s.2, true)

end RedisCache

/-! ## Cache middleware (src/lib/cache/middleware.ts) -/

/-- getWithRevalidate: await cache.get; on a hit return the cached value and
schedule a background revalidation with `setImmediate` (always — the
`staleTime` option is accepted but never consulted); on a miss await the
fetch synchronously, store the result and return it.  Output:
(result, state after the synchronous part, background refresh scheduled,
number of synchronous fetchFn invocations). -/
def getWithRevalidate (cfgTtl : Option Int) (st : RedisState) (now : Int)
    (k : String) (fetchVal : String) (optTtl : Option Int)
    (staleTime : Option Int) (tags : List String) :
    String × RedisState × Bool × Nat :=
  let r := RedisCache.get st now k
  match r.1 with
  | some v => (v, r.2, true, 0)
  | none =>
    let s := RedisCache.set cfgTtl r.2 now k fetchVal optTtl tags
    (fetchVal, s.2, false, 1)

/-- A Next.js request as seen by the cache middleware: its HTTP method and
the pathname and query string of its URL. -/
structure NextRequest where
  method : String
  pathname : String
  search : String
deriving Repr, DecidableEq

/-- A Next.js response: status, JSON body, and the X-Cache header if set. -/
structure NextResponse where
  status : Nat
  body : String
  xCache : Option String
deriving Repr, DecidableEq

/-- Options accepted by withCache (CacheMiddlewareOptions). -/
structure CacheMiddlewareOptions where
  ttl : Option Int := none
  tags : List String := []
  keyGenerator : Option (NextRequest → String) := none
  shouldCache : Option (NextRequest → NextResponse → Bool) := none
  beforeCache : Option (String → String) := none
  afterCache : Option (String → String) := none
  skipCache : Option (NextRequest → Bool) := none

/-- The default cache key generator: `api:${method}:${pathname}${search}`. -/
def defaultKeyGenerator (req : NextRequest) : String :=
  "api:" ++ req.method ++ ":" ++ req.pathname ++ req.search

/-- withCache: wraps a handler.  Non-GET requests and requests matching
`skipCache` call the handler directly.  Otherwise the generated key is looked
up in the cache; a hit returns the (optionally transformed) cached body as a
200 response with X-Cache HIT; a miss runs the handler and, when `shouldCache`
holds (default: status 200) and the status is 200, stores the (optionally
transformed) body with the configured ttl and tags and returns the body with
X-Cache MISS. -/
def withCache (cfgTtl : Option Int) (handler : NextRequest → NextResponse)
    (opts : CacheMiddlewareOptions) (req : NextRequest) (st : RedisState)
    (now : Int) : NextResponse × RedisState :=
  if req.method ≠ "GET" then (handler req, st)
  else if (match opts.skipCache with | some f => f req | none => false) then
    (handler req, st)
  else
    let key := (opts.keyGenerator.getD defaultKeyGenerator) req
    let r := RedisCache.get st now key
    match r.1 with
    | some c =>
      let data := (opts.afterCache.getD id) c
      ({ status := 200, body := data, xCache := some "HIT" }, r.2)
    | none =>
      let resp := handler req
      let should := match opts.shouldCache with
        | none => resp.status == 200
        | some f => f req resp
      if should && resp.status == 200 then
        let toCache := (opts.beforeCache.getD id) resp.body
        let s := RedisCache.set cfgTtl r.2 now key toCache opts.ttl opts.tags
        ({ status := resp.status, body := resp.body, xCache := some "MISS" }, s.2)
      else (resp, r.2)

/-! ## Traces of RedisCache.set calls

Reachable cache states for the tag-invalidation claims are built from a
sequence of `RedisCache.set` calls, each at its own wall-clock instant. -/

/-- One RedisCache.set call in a client trace. -/
structure SetEvent where
  now : Int
  key : String
  value : String
  ttl : Option Int
  tags : List String
deriving Repr, DecidableEq

/-- Run a trace of RedisCache.set calls (with the given instance default TTL)
from a starting state. -/
def runSets (cfgTtl : Option Int) (st : RedisState) (evs : List SetEvent) :
    RedisState :=
  evs.foldl (fun s e => (RedisCache.set cfgTtl s e.now e.key e.value e.ttl e.tags).2) st

/-- The set event stores key `k` carrying tag `t`: it targets `k`, its
resolved TTL is accepted by SETEX, and `t` is among its tags. -/
def SetEvent.storesWithTag (cfgTtl : Option Int) (e : SetEvent) (k t : String) :
    Prop :=
  e.key = k ∧ 0 < RedisCache.resolveTtl e.ttl cfgTtl ∧ t ∈ e.tags

instance (cfgTtl : Option Int) (e : SetEvent) (k t : String) :
    Decidable (e.storesWithTag cfgTtl k t) := by
  unfold SetEvent.storesWithTag; infer_instance

/-! ## Interleaving machine for concurrent getOrSet calls

`RedisCache.getOrSet` awaits `this.get(key)`, then (on a miss) awaits
`fetchFn()` and `this.set(...)`.  N concurrent calls for one missing key are
modelled as N callers interleaved at those await points; the shared cell is
the key's cache entry.  A schedule names which caller runs to its next await
point at each step. -/

/-- Program counter of one concurrent getOrSet caller. -/
inductive GoPc where
  /-- About to await `this.get(key)`. -/
  | start
  /-- Observed a miss and invoked fetchFn; about to await it and then set. -/
  | fetching
  /-- Returned. -/
  | done
deriving Repr, DecidableEq

/-- Shared state of N interleaved getOrSet calls on one key. -/
structure HerdState where
  cache : Option String
  callers : List GoPc
  fetchCount : Nat
deriving Repr, DecidableEq

/-- Caller `i` runs to its next await point.  At `start` it receives the GET
result: a hit returns it immediately, a miss invokes fetchFn (counted).  At
`fetching` the fetched value arrives and is stored with `set`, and the call
returns it. -/
def herdStep (st : HerdState) (i : Nat) : HerdState :=
  match st.callers.get? i with
  | none => st
  | some GoPc.start =>
    match st.cache with
    | some _ => { st with callers := st.callers.set i GoPc.done }
    | none =>
      { st with callers := st.callers.set i GoPc.fetching,
                fetchCount := st.fetchCount + 1 }
  | some GoPc.fetching =>
    { st with cache := some "fetched", callers := st.callers.set i GoPc.done }
  | some GoPc.done => st

/-- Run a schedule of interleaving choices. -/
def herdRun (st : HerdState) (sched : List Nat) : HerdState :=
  sched.foldl herdStep st

/-- N concurrent getOrSet callers on a key absent from the cache. -/
def herdInit (n : Nat) : HerdState :=
  ⟨none, List.replicate n GoPc.start, 0⟩

/-! ## The connection pool (`ConnectionPoolManager`)

`acquireConnection` either runs the operation at once (when
`activeConnections < maxConnections`) or pushes a closure onto
`connectionQueue` with a rejection timer.  The timer callback rejects the
promise with the pool-timeout error but does not remove the closure from the
queue; `processQueue` (run after each completion) shifts the oldest closure
and invokes it — clearing its (possibly already fired) timer, incrementing
the active count, and starting the operation.  Node's single-threaded event
loop interleaves these as atomic steps, modelled by `poolStep`; tickets are
identified by arrival order. -/

/-- Snapshot of the pool: the active count, the wait queue (ticket ids in
FIFO order), the armed rejection timers, the tickets whose promise was
rejected with the pool-timeout error, the tickets whose operation has been
started (executed), the tickets whose operation is currently running, the
timeout statistic, the next fresh ticket id, and the ghost list of every
ticket that was ever queued. -/
structure PoolState where
  active : Int
  queue : List Nat
  timerPending : List Nat
  timedOut : List Nat
  executed : List Nat
  running : List Nat
  timeoutCount : Nat
  nextId : Nat
  enqueuedEver : List Nat
deriving Repr, DecidableEq

/-- The hard-coded pool limit (`maxConnections = 20`). -/
def maxConnections : Int := 20

/-- Events the runtime can deliver to the pool. -/
inductive PoolEvent where
  /-- A new acquireConnection call arrives. -/
  | arrive
  /-- The rejection timer of ticket `id` fires. -/
  | fire (id : Nat)
  /-- The running operation of caller `id` completes. -/
  | complete (id : Nat)
deriving Repr, DecidableEq

/-- `processQueue`: when the queue is non-empty and a slot is free, shift the
oldest closure and invoke it (clearTimeout, increment active, start the
operation) — regardless of whether its promise has already been rejected. -/
def poolProcessQueue (st : PoolState) : PoolState :=
  match st.queue with
  | [] => st
  | h :: rest =>
    if st.active < maxConnections then
      { st with queue := rest,
                timerPending := st.timerPending.erase h,
                active := st.active + 1,
                running := h :: st.running,
                executed := st.executed ++ [h] }
    else st

/-- One atomic event-loop step of the pool. -/
def poolStep (st : PoolState) : PoolEvent → PoolState
  | PoolEvent.arrive =>
    let id := st.nextId
    if st.active < maxConnections then
      { st with active := st.active + 1, running := id :: st.running,
                executed := st.executed ++ [id], nextId := id + 1 }
    else
      { st with queue := st.queue ++ [id], timerPending := id :: st.timerPending,
                enqueuedEver := st.enqueuedEver ++ [id], nextId := id + 1 }
  | PoolEvent.fire id =>
    if id ∈ st.timerPending then
      { st with timerPending := st.timerPending.erase id,
                timedOut := id :: st.timedOut,
                timeoutCount := st.timeoutCount + 1 }
    else st
  | PoolEvent.complete id =>
    if id ∈ st.running then
      poolProcessQueue
        { st with running := st.running.erase id, active := st.active - 1 }
    else st

/-- Run a sequence of pool events. -/
def poolRun (st : PoolState) (evs : List PoolEvent) : PoolState :=
  evs.foldl poolStep st

/-- The freshly constructed pool. -/
def poolInit : PoolState := ⟨0, [], [], [], [], [], 0, 0, []⟩

/-! ## The batching data loader (`BatchQueryExecutor.createDataLoader`)

Each `load(key)` either resolves from the per-instance memo map (when the
cache option is on) or pushes a pending request onto the batch queue.  When
the batch executes, `batchFn` is invoked once on the queued keys in enqueue
order; each pending request is settled from the result at its own position
(`results[index]`): an `Error` instance rejects it, any other value resolves
it (a missing index resolves it with `undefined`), and non-error values are
memoized.  If `batchFn` itself throws, every request of the batch is
rejected with that error. -/

/-- How one pending load's future was settled. -/
inductive LoadOutcome (E V : Type) where
  | resolvedWith (v : V)
  /-- `results[index]` was `undefined` (index beyond the results array). -/
  | resolvedUndef
  | rejectedWith (e : E)
deriving Repr, DecidableEq

/-- State of one data-loader instance: the memo map (present iff the cache
option is on; a `none` value is a memoized `undefined`), the pending keys in
enqueue order, the log of `batchFn` invocations, and the settled futures in
settlement order. -/
structure LoaderState (K V E : Type) where
  memo : Option (List (K × Option V))
  queue : List K
  calls : List (List K)
  settled : List (K × LoadOutcome E V)

/-- A data-loader instance with no memoized values and an empty batch. -/
def loaderInit (useCache : Bool) : LoaderState K V E :=
  ⟨if useCache then some [] else none, [], [], []⟩

/-- One `load(key)` call: a memo hit resolves immediately, otherwise the key
joins the pending batch. -/
def DataLoader.load [DecidableEq K] (st : LoaderState K V E) (k : K) :
    LoaderState K V E :=
  match st.memo with
  | some m =>
    match alookup k m with
    | some (some v) =>
      { st with settled := st.settled ++ [(k, LoadOutcome.resolvedWith v)] }
    | some none =>
      { st with settled := st.settled ++ [(k, LoadOutcome.resolvedUndef)] }
    | none => { st with queue := st.queue ++ [k] }
  | none => { st with queue := st.queue ++ [k] }

/-- Settle the pending requests positionally from the results array:
`results[index] instanceof Error` rejects, otherwise resolves (with
`undefined` when the index is beyond the array). -/
def settleAll : List K → List (Except E V) → List (K × LoadOutcome E V)
  | [], _ => []
  | k :: ks, [] => (k, LoadOutcome.resolvedUndef) :: settleAll ks []
  | k :: ks, r :: rs =>
    (k, match r with
        | Except.error e => LoadOutcome.rejectedWith e
        | Except.ok v => LoadOutcome.resolvedWith v) :: settleAll ks rs

/-- The memo writes performed while settling a batch: every non-Error result
is stored under its key (a missing index stores `undefined`). -/
def memoUpdate [DecidableEq K] (m : List (K × Option V)) :
    List K → List (Except E V) → List (K × Option V)
  | [], _ => m
  | k :: ks, [] =>
    memoUpdate (aset k (none : Option V) m) ks ([] : List (Except E V))
  | k :: ks, r :: rs =>
    match r with
    | Except.error _ => memoUpdate m ks rs
    | Except.ok v => memoUpdate (aset k (some v) m) ks rs

/-- `executeBatch`: snapshot and clear the queue, invoke `batchFn` once on
the snapshotted keys, and settle every pending request. -/
def DataLoader.executeBatch [DecidableEq K]
    (batchFn : List K → Except E (List (Except E V)))
    (st : LoaderState K V E) : LoaderState K V E :=
  let keys := st.queue
  match batchFn keys with
  | Except.error e =>
    { st with queue := [], calls := st.calls ++ [keys],
              settled := st.settled ++
                keys.map (fun k => (k, LoadOutcome.rejectedWith e)) }
  | Except.ok results =>
    { st with queue := [], calls := st.calls ++ [keys],
              settled := st.settled ++ settleAll keys results,
              memo := st.memo.map (fun m => memoUpdate m keys results) }

/-! ## The N+1 query detector (`N1QueryDetector`)

`normalizeQuery` replaces maximal digit runs, single-quoted literals and
double-quoted identifiers each with the wildcard token `?`, lower-cases, and
trims.  `trackQuery` increments the per-window counter of the normalized
shape; `getPatterns` lists the shapes whose counter strictly exceeds the
threshold, sorted by count descending, without touching the counters. -/

namespace N1QueryDetector

/-- Replace every maximal run of digits with a single `?`
(the `/\d+/g` replacement); the flag records being inside a run. -/
def wildcardDigits : Bool → List Char → List Char
  | _, [] => []
  | inRun, c :: cs =>
    if c.isDigit then
      if inRun then wildcardDigits true cs
      else '?' :: wildcardDigits true cs
    else c :: wildcardDigits false cs

/-- Scan for the next closing quote character; return the remainder after it
together with a bound used for termination. -/
def afterClosingQuote (qc : Char) :
    (cs : List Char) → Option { rest : List Char // rest.length < cs.length }
  | [] => none
  | c :: cs =>
    if c = qc then some ⟨cs, Nat.lt_succ_self _⟩
    else
      match afterClosingQuote qc cs with
      | some ⟨rest, h⟩ => some ⟨rest, Nat.lt_succ_of_lt h⟩
      | none => none

/-- Replace every complete quoted literal `qc … qc` with `?` (the
`/'[^']*'/g` and `/"[^"]*"/g` replacements); an unmatched opening quote is
left as-is, exactly as the regex leaves it unmatched.  The fuel argument
makes the recursion structural; it is initialized to the list length, which
the scan never exhausts since every step consumes at least one character. -/
def wildcardQuotedAux (qc : Char) : Nat → List Char → List Char
  | 0, l => l
  | _ + 1, [] => []
  | fuel + 1, c :: cs =>
    if c = qc then
      match afterClosingQuote qc cs with
      | some ⟨rest, _⟩ => '?' :: wildcardQuotedAux qc fuel rest
      | none => c :: wildcardQuotedAux qc fuel cs
    else c :: wildcardQuotedAux qc fuel cs

/-- The quoted-literal replacement, with enough fuel for the whole scan. -/
def wildcardQuoted (qc : Char) (l : List Char) : List Char :=
  wildcardQuotedAux qc l.length l

/-- JavaScript String.prototype.trim: strip leading and trailing whitespace. -/
def jsTrim (l : List Char) : List Char :=
  ((l.dropWhile Char.isWhitespace).reverse.dropWhile Char.isWhitespace).reverse

/-- `normalizeQuery`: digits, then single-quoted literals, then double-quoted
identifiers to `?`; lower-case; trim. -/
def normalizeQuery (q : String) : String :=
  String.mk (jsTrim (((wildcardQuoted (Char.ofNat 34)
    (wildcardQuoted (Char.ofNat 39) (wildcardDigits false q.data)))).map
      Char.toLower))

/-- The repetition threshold (`this.threshold = 5`). -/
def threshold : Nat := 5

/-- `trackQuery`: increment the current-window counter of the normalized
shape (`(this.queryPatterns.get(pattern) || 0) + 1`). -/
def trackQuery (m : List (String × Nat)) (q : String) : List (String × Nat) :=
  let p := normalizeQuery q
  aset p ((alookup p m).getD 0 + 1) m

/-- Insert into a list kept sorted by count descending (the comparator
`(a, b) => b[1] - a[1]`). -/
def insertByCountDesc (p : String × Nat) :
    List (String × Nat) → List (String × Nat)
  | [] => [p]
  | q :: qs => if p.2 ≤ q.2 then q :: insertByCountDesc p qs else p :: q :: qs

/-- Sort by count descending. -/
def sortByCountDesc (l : List (String × Nat)) : List (String × Nat) :=
  l.foldr insertByCountDesc []

/-- Sortedness by count, descending. -/
def SortedByCountDesc (l : List (String × Nat)) : Prop :=
  l.Pairwise (fun a b => b.2 ≤ a.2)

/-- `getPatterns`: the entries whose count strictly exceeds the threshold,
sorted by count descending; the counter map itself is returned unchanged
(the method only reads it). -/
def getPatterns (m : List (String × Nat)) :
    List (String × Nat) × List (String × Nat) :=
  (sortByCountDesc (m.filter (fun e => threshold < e.2)), m)

end N1QueryDetector

/-! ## Theorems -/

theorem alookup_aset_self [DecidableEq κ] (k : κ) (v : α) (l : List (κ × α)) :
    alookup k (aset k v l) = some v := by
  induction l with
  | nil => simp [aset, alookup]
  | cons hd tl ih =>
    obtain ⟨k', v'⟩ := hd
    by_cases h : k' = k <;> simp [aset, alookup, h, ih]

theorem alookup_aset_ne [DecidableEq κ] {k k' : κ} (hne : k' ≠ k) (v : α)
    (l : List (κ × α)) : alookup k' (aset k v l) = alookup k' l := by
  have hne' : k ≠ k' := Ne.symm hne
  induction l with
  | nil => simp [aset, alookup, hne']
  | cons hd tl ih =>
    obtain ⟨k₀, v₀⟩ := hd
    by_cases h : k₀ = k
    · subst h
      simp [aset, alookup, hne']
    · simp only [aset, if_neg h]
      by_cases h' : k₀ = k'
      · simp [alookup, h']
      · simp [alookup, h', ih]

theorem alookup_aerase_self [DecidableEq κ] (k : κ) (l : List (κ × α)) :
    alookup k (aerase k l) = none := by
  induction l with
  | nil => simp [aerase, alookup]
  | cons hd tl ih =>
    obtain ⟨k', v'⟩ := hd
    by_cases h : k' = k <;> simp [aerase, alookup, h, ih]

theorem alookup_aerase_ne [DecidableEq κ] {k k' : κ} (hne : k' ≠ k)
    (l : List (κ × α)) : alookup k' (aerase k l) = alookup k' l := by
  have hne' : k ≠ k' := Ne.symm hne
  induction l with
  | nil => simp [aerase, alookup]
  | cons hd tl ih =>
    obtain ⟨k₀, v₀⟩ := hd
    by_cases h : k₀ = k
    · subst h
      simp [aerase, alookup, hne', ih]
    · by_cases h' : k₀ = k' <;> simp [aerase, alookup, h, h', hne, ih]

namespace RedisCache

theorem store_sadd (st : RedisState) (sk m : String) :
    (sadd st sk m).store = st.store := by
  unfold sadd
  dsimp only
  split <;> rfl

theorem smembers_sadd (st : RedisState) (sk m sk' : String) (x : String) :
    x ∈ smembers (sadd st sk m) sk' ↔
      x ∈ smembers st sk' ∨ (sk' = sk ∧ x = m) := by
  by_cases hk : sk' = sk
  · subst hk
    unfold sadd smembers
    dsimp only
    split
    · rename_i hmem
      constructor
      · exact fun h => Or.inl h
      · rintro (h | ⟨-, rfl⟩)
        · exact h
        · exact hmem
    · simp [alookup_aset_self]
  · unfold sadd smembers
    dsimp only
    split
    · simp [hk]
    · simp [alookup_aset_ne (Ne.symm (fun h => hk h.symm)), hk]

theorem store_addTagsToKey (st : RedisState) (k : String) (tags : List String) :
    (addTagsToKey st k tags).store = st.store := by
  induction tags generalizing st with
  | nil => rfl
  | cons t ts ih =>
    show (addTagsToKey (sadd st (tagKey t) k) k ts).store = st.store
    rw [ih, store_sadd]

theorem smembers_addTagsToKey (st : RedisState) (k : String) (tags : List String)
    (sk x : String) :
    x ∈ smembers (addTagsToKey st k tags) sk ↔
      x ∈ smembers st sk ∨ (x = k ∧ ∃ t ∈ tags, sk = tagKey t) := by
  induction tags generalizing st with
  | nil => simp [addTagsToKey]
  | cons t ts ih =>
    show x ∈ smembers (addTagsToKey (sadd st (tagKey t) k) k ts) sk ↔ _
    rw [ih, smembers_sadd]
    constructor
    · rintro ((h | ⟨hsk, hx⟩) | ⟨hx, t', ht', hsk⟩)
      · exact Or.inl h
      · exact Or.inr ⟨hx, t, by simp, hsk⟩
      · exact Or.inr ⟨hx, t', by simp [ht'], hsk⟩
    · rintro (h | ⟨hx, t', ht', hsk⟩)
      · exact Or.inl (Or.inl h)
      · rcases List.mem_cons.mp ht' with rfl | ht'
        · exact Or.inl (Or.inr ⟨hsk, hx⟩)
        · exact Or.inr ⟨hx, t', ht', hsk⟩

/-- Characterization of RedisCache.set: the result state in closed form.
`addTagsToKey st1 k []` is `st1` definitionally, so the non-empty-tags guard
in the source collapses away. -/
theorem set_eq (cfgTtl : Option Int) (st : RedisState) (now : Int)
    (k v : String) (optTtl : Option Int) (tags : List String) :
    set cfgTtl st now k v optTtl tags =
      if 0 < resolveTtl optTtl cfgTtl then
        (let st2 := addTagsToKey
            { st with store := aset k (v, now + resolveTtl optTtl cfgTtl) st.store }
            k tags
         (true, { st2 with setCount := st2.setCount + 1 }))
      else (false, { st with errorCount := st.errorCount + 1 }) := by
  unfold set setex
  by_cases h : resolveTtl optTtl cfgTtl ≤ 0
  · rw [if_pos h, if_neg (by omega : ¬ 0 < resolveTtl optTtl cfgTtl)]
  · rw [if_neg h, if_pos (by omega : 0 < resolveTtl optTtl cfgTtl)]
    by_cases he : tags.isEmpty
    · have : tags = [] := by simpa using he
      subst this
      rfl
    · simp only [he, Bool.false_eq_true, if_false]

/-- The boolean returned by RedisCache.set reports exactly whether the
resolved TTL was accepted by SETEX. -/
theorem set_fst (cfgTtl : Option Int) (st : RedisState) (now : Int)
    (k v : String) (optTtl : Option Int) (tags : List String) :
    (set cfgTtl st now k v optTtl tags).1 = true ↔
      0 < resolveTtl optTtl cfgTtl := by
  rw [set_eq]
  by_cases h : 0 < resolveTtl optTtl cfgTtl <;> simp [h]

theorem smembers_setCount_update (s : RedisState) (n : Nat) (sk : String) :
    smembers { s with setCount := n } sk = smembers s sk := rfl

theorem smembers_errorCount_update (s : RedisState) (n : Nat) (sk : String) :
    smembers { s with errorCount := n } sk = smembers s sk := rfl

theorem smembers_store_update (s : RedisState) (l : List (String × String × Int))
    (sk : String) : smembers { s with store := l } sk = smembers s sk := rfl

theorem store_set (cfgTtl : Option Int) (st : RedisState) (now : Int)
    (k v : String) (optTtl : Option Int) (tags : List String) :
    ((set cfgTtl st now k v optTtl tags).2).store =
      if 0 < resolveTtl optTtl cfgTtl then
        aset k (v, now + resolveTtl optTtl cfgTtl) st.store
      else st.store := by
  rw [set_eq]
  by_cases h : 0 < resolveTtl optTtl cfgTtl
  · rw [if_pos h, if_pos h]
    exact store_addTagsToKey _ _ _
  · rw [if_neg h, if_neg h]

theorem smembers_set (cfgTtl : Option Int) (st : RedisState) (now : Int)
    (k v : String) (optTtl : Option Int) (tags : List String) (sk x : String) :
    x ∈ smembers ((set cfgTtl st now k v optTtl tags).2) sk ↔
      x ∈ smembers st sk ∨
        (0 < resolveTtl optTtl cfgTtl ∧ x = k ∧ ∃ t ∈ tags, sk = tagKey t) := by
  rw [set_eq]
  by_cases h : 0 < resolveTtl optTtl cfgTtl
  · rw [if_pos h]
    show x ∈ smembers { addTagsToKey _ k tags with setCount := _ } sk ↔ _
    rw [smembers_setCount_update, smembers_addTagsToKey, smembers_store_update]
    simp [h, and_assoc]
  · rw [if_neg h]
    show x ∈ smembers { st with errorCount := _ } sk ↔ _
    rw [smembers_errorCount_update]
    simp [h]

theorem rawLookup_errorCount_update (s : RedisState) (n : Nat) (k : String) :
    rawLookup { s with errorCount := n } k = rawLookup s k := rfl

theorem rawLookup_set_self (cfgTtl : Option Int) (st : RedisState) (now : Int)
    (k v : String) (optTtl : Option Int) (tags : List String)
    (h : 0 < resolveTtl optTtl cfgTtl) :
    rawLookup ((set cfgTtl st now k v optTtl tags).2) k =
      some (v, now + resolveTtl optTtl cfgTtl) := by
  unfold rawLookup
  rw [store_set, if_pos h, alookup_aset_self]

theorem rawLookup_set_other (cfgTtl : Option Int) (st : RedisState) (now : Int)
    (k v : String) (optTtl : Option Int) (tags : List String) {k' : String}
    (h : k' ≠ k) :
    rawLookup ((set cfgTtl st now k v optTtl tags).2) k' = rawLookup st k' := by
  unfold rawLookup
  rw [store_set]
  by_cases h0 : 0 < resolveTtl optTtl cfgTtl
  · rw [if_pos h0, alookup_aset_ne h]
  · rw [if_neg h0]

/-- Characterization of `invalidateTag`: the tag sets afterwards. -/
theorem smembers_invalidateTag (st : RedisState) (tag : String) (sk : String) :
    smembers ((invalidateTag st tag).2) sk =
      if sk = tagKey tag then [] else smembers st sk := by
  unfold invalidateTag
  by_cases he : (smembers st (tagKey tag)).isEmpty
  · rw [if_pos he]
    by_cases hk : sk = tagKey tag
    · rw [if_pos hk, hk]
      simpa using he
    · rw [if_neg hk]
  · rw [if_neg he]
    show smembers { delSet _ (tagKey tag) with deleteCount := _ } sk = _
    have hdel : ∀ (s : RedisState) (n : Nat),
        smembers { s with deleteCount := n } sk = smembers s sk := fun _ _ => rfl
    rw [hdel]
    have hfold : ∀ (ks : List String) (s : RedisState),
        (ks.foldl redisDel s).tagSets = s.tagSets := by
      intro ks
      induction ks with
      | nil => intro s; rfl
      | cons a as ih => intro s; exact ih (redisDel s a)
    by_cases hk : sk = tagKey tag
    · rw [if_pos hk, hk]
      show (alookup (tagKey tag) (aerase (tagKey tag) _)).getD [] = []
      rw [hfold, alookup_aerase_self]
      rfl
    · rw [if_neg hk]
      show (alookup sk (aerase (tagKey tag) _)).getD [] = _
      rw [alookup_aerase_ne hk, hfold]
      rfl

theorem rawLookup_foldl_redisDel_none (ks : List String) (st : RedisState)
    (x : String) (h : rawLookup st x = none) :
    rawLookup (ks.foldl redisDel st) x = none := by
  induction ks generalizing st with
  | nil => exact h
  | cons a as ih =>
    apply ih
    show alookup x (aerase a st.store) = none
    by_cases hx : x = a
    · rw [hx, alookup_aerase_self]
    · rw [alookup_aerase_ne hx]
      exact h

theorem rawLookup_foldl_redisDel_mem (ks : List String) (st : RedisState)
    (x : String) (h : x ∈ ks) :
    rawLookup (ks.foldl redisDel st) x = none := by
  induction ks generalizing st with
  | nil => cases h
  | cons a as ih =>
    rcases List.mem_cons.mp h with rfl | h'
    · show rawLookup (as.foldl redisDel (redisDel st x)) x = none
      apply rawLookup_foldl_redisDel_none
      show alookup x (aerase x st.store) = none
      exact alookup_aerase_self x st.store
    · exact ih _ h'

theorem rawLookup_foldl_redisDel_not_mem (ks : List String) (st : RedisState)
    (x : String) (h : x ∉ ks) :
    rawLookup (ks.foldl redisDel st) x = rawLookup st x := by
  induction ks generalizing st with
  | nil => rfl
  | cons a as ih =>
    have hx : x ≠ a := fun hxa => h (hxa ▸ List.mem_cons_self a as)
    show rawLookup (as.foldl redisDel (redisDel st a)) x = rawLookup st x
    rw [ih (redisDel st a) (fun h' => h (List.mem_cons_of_mem a h'))]
    show alookup x (aerase a st.store) = alookup x st.store
    exact alookup_aerase_ne hx st.store

theorem rawLookup_deleteCount_update (s : RedisState) (n : Nat) (k : String) :
    rawLookup { s with deleteCount := n } k = rawLookup s k := rfl

theorem rawLookup_delSet (s : RedisState) (sk k : String) :
    rawLookup (delSet s sk) k = rawLookup s k := rfl

/-- The entry of every key in the invalidated tag's set is gone afterwards. -/
theorem rawLookup_invalidateTag_mem (st : RedisState) (tag : String)
    {x : String} (h : x ∈ smembers st (tagKey tag)) :
    rawLookup ((invalidateTag st tag).2) x = none := by
  unfold invalidateTag
  have he : ¬ (smembers st (tagKey tag)).isEmpty := by
    cases hs : smembers st (tagKey tag) with
    | nil => rw [hs] at h; cases h
    | cons a as => simp [hs]
  rw [if_neg he]
  show rawLookup { delSet _ _ with deleteCount := _ } x = none
  rw [rawLookup_deleteCount_update, rawLookup_delSet]
  exact rawLookup_foldl_redisDel_mem _ _ _ h

/-- Keys outside the invalidated tag's set keep their entries (and stats do
not affect entries). -/
theorem rawLookup_invalidateTag_not_mem (st : RedisState) (tag : String)
    {x : String} (h : x ∉ smembers st (tagKey tag)) :
    rawLookup ((invalidateTag st tag).2) x = rawLookup st x := by
  unfold invalidateTag
  by_cases he : (smembers st (tagKey tag)).isEmpty
  · rw [if_pos he]
  · rw [if_neg he]
    show rawLookup { delSet _ _ with deleteCount := _ } x = _
    rw [rawLookup_deleteCount_update, rawLookup_delSet]
    exact rawLookup_foldl_redisDel_not_mem _ _ _ h

/-- The count returned by invalidateTag is the size of the tag's member set,
regardless of whether any member is still a live key. -/
theorem invalidateTag_fst (st : RedisState) (tag : String) :
    (invalidateTag st tag).1 = (smembers st (tagKey tag)).length := by
  unfold invalidateTag
  by_cases he : (smembers st (tagKey tag)).isEmpty
  · rw [if_pos he]
    have : smembers st (tagKey tag) = [] := by simpa using he
    rw [this]
    rfl
  · rw [if_neg he]

/-- The state part of invalidateTags is the plain fold of invalidateTag. -/
theorem invalidateTags_snd (st : RedisState) (tags : List String) :
    (invalidateTags st tags).2 =
      tags.foldl (fun s t => (invalidateTag s t).2) st := by
  suffices h : ∀ (tags : List String) (n : Nat) (st : RedisState),
      (tags.foldl (fun acc t =>
        ((acc.1 + (invalidateTag acc.2 t).1 : Nat), (invalidateTag acc.2 t).2))
        (n, st)).2 = tags.foldl (fun s t => (invalidateTag s t).2) st by
    exact h tags 0 st
  intro tags
  induction tags with
  | nil => intro n st; rfl
  | cons t ts ih => intro n st; exact ih _ _

theorem smembers_invalidateTags_not_mem (st : RedisState) (T : List String)
    (sk : String) (h : ∀ t ∈ T, sk ≠ tagKey t) :
    smembers ((invalidateTags st T).2) sk = smembers st sk := by
  rw [invalidateTags_snd]
  induction T generalizing st with
  | nil => rfl
  | cons t ts ih =>
    show smembers (ts.foldl _ ((invalidateTag st t).2)) sk = _
    rw [ih _ (fun t' ht' => h t' (List.mem_cons_of_mem t ht')),
      smembers_invalidateTag,
      if_neg (h t (List.mem_cons_self t ts))]

theorem smembers_invalidateTags_empty_stable (st : RedisState) (T : List String)
    (sk : String) (h : smembers st sk = []) :
    smembers ((invalidateTags st T).2) sk = [] := by
  rw [invalidateTags_snd]
  induction T generalizing st with
  | nil => exact h
  | cons t ts ih =>
    show smembers (ts.foldl _ ((invalidateTag st t).2)) sk = []
    apply ih
    rw [smembers_invalidateTag]
    by_cases hk : sk = tagKey t
    · rw [if_pos hk]
    · rw [if_neg hk]; exact h

/-- After invalidateTags, every tag in the list has an empty member set. -/
theorem smembers_invalidateTags_mem (st : RedisState) (T : List String)
    {t : String} (h : t ∈ T) :
    smembers ((invalidateTags st T).2) (tagKey t) = [] := by
  rw [invalidateTags_snd]
  induction T generalizing st with
  | nil => cases h
  | cons t0 ts ih =>
    show smembers (ts.foldl _ ((invalidateTag st t0).2)) (tagKey t) = []
    by_cases hk : tagKey t = tagKey t0
    · have hstable := smembers_invalidateTags_empty_stable
        ((invalidateTag st t0).2) ts (tagKey t) ?_
      · rw [invalidateTags_snd] at hstable
        exact hstable
      · rw [smembers_invalidateTag, if_pos hk]
    · rcases List.mem_cons.mp h with rfl | h'
      · exact absurd rfl hk
      · exact ih ((invalidateTag st t0).2) h'

theorem rawLookup_invalidateTags_none_mono (st : RedisState) (T : List String)
    (x : String) (h : rawLookup st x = none) :
    rawLookup ((invalidateTags st T).2) x = none := by
  rw [invalidateTags_snd]
  induction T generalizing st with
  | nil => exact h
  | cons t ts ih =>
    show rawLookup (ts.foldl _ ((invalidateTag st t).2)) x = none
    apply ih
    by_cases hm : x ∈ smembers st (tagKey t)
    · exact rawLookup_invalidateTag_mem st t hm
    · rw [rawLookup_invalidateTag_not_mem st t hm]; exact h

/-- A key recorded in the set of any invalidated tag has no entry left. -/
theorem rawLookup_invalidateTags_mem (st : RedisState) (T : List String)
    {t x : String} (ht : t ∈ T) (hx : x ∈ smembers st (tagKey t)) :
    rawLookup ((invalidateTags st T).2) x = none := by
  rw [invalidateTags_snd]
  induction T generalizing st with
  | nil => cases ht
  | cons t0 ts ih =>
    show rawLookup (ts.foldl _ ((invalidateTag st t0).2)) x = none
    by_cases hk : tagKey t = tagKey t0
    · have hkill : rawLookup ((invalidateTag st t0).2) x = none :=
        rawLookup_invalidateTag_mem st t0 (hk ▸ hx)
      have := rawLookup_invalidateTags_none_mono ((invalidateTag st t0).2) ts x hkill
      rw [invalidateTags_snd] at this
      exact this
    · rcases List.mem_cons.mp ht with rfl | ht'
      · exact absurd rfl hk
      · have hx' : x ∈ smembers ((invalidateTag st t0).2) (tagKey t) := by
          rw [smembers_invalidateTag, if_neg hk]; exact hx
        have := ih ((invalidateTag st t0).2) ht' hx'
        exact this

/-- A key recorded in no invalidated tag's set keeps its entry untouched. -/
theorem rawLookup_invalidateTags_not_mem (st : RedisState) (T : List String)
    (x : String) (h : ∀ t ∈ T, x ∉ smembers st (tagKey t)) :
    rawLookup ((invalidateTags st T).2) x = rawLookup st x := by
  rw [invalidateTags_snd]
  induction T generalizing st with
  | nil => rfl
  | cons t0 ts ih =>
    show rawLookup (ts.foldl _ ((invalidateTag st t0).2)) x = _
    have h0 : x ∉ smembers st (tagKey t0) := h t0 (List.mem_cons_self t0 ts)
    have hrest : ∀ t ∈ ts, x ∉ smembers ((invalidateTag st t0).2) (tagKey t) := by
      intro t ht
      rw [smembers_invalidateTag]
      by_cases hk : tagKey t = tagKey t0
      · rw [if_pos hk]; exact List.not_mem_nil x
      · rw [if_neg hk]; exact h t (List.mem_cons_of_mem t0 ht)
    rw [ih _ hrest, rawLookup_invalidateTag_not_mem st t0 h0]

/-- redisGet only looks at the entry of its key. -/
theorem redisGet_congr {s1 s2 : RedisState} {k : String}
    (h : rawLookup s1 k = rawLookup s2 k) (now : Int) :
    redisGet s1 now k = redisGet s2 now k := by
  unfold redisGet
  rw [h]

theorem redisGet_of_rawLookup_none {s : RedisState} {k : String}
    (h : rawLookup s k = none) (now : Int) : redisGet s now k = none := by
  unfold redisGet
  rw [h]

end RedisCache

/-- The tag-set membership built up by a trace of RedisCache.set calls:
a key is in a tag's set exactly when some successful set stored it with that
tag (tag sets are never pruned by expiry or overwrite). -/
theorem smembers_runSets (cfgTtl : Option Int) (st : RedisState)
    (evs : List SetEvent) (t x : String) :
    x ∈ RedisCache.smembers (runSets cfgTtl st evs) (RedisCache.tagKey t) ↔
      x ∈ RedisCache.smembers st (RedisCache.tagKey t) ∨
        ∃ e ∈ evs, e.storesWithTag cfgTtl x t := by
  induction evs generalizing st with
  | nil => simp [runSets]
  | cons e es ih =>
    show x ∈ RedisCache.smembers (runSets cfgTtl
        ((RedisCache.set cfgTtl st e.now e.key e.value e.ttl e.tags).2) es) _ ↔ _
    rw [ih, RedisCache.smembers_set]
    unfold SetEvent.storesWithTag
    constructor
    · rintro ((h | ⟨hr, rfl, t', ht', hk⟩) | ⟨e', he', h'⟩)
      · exact Or.inl h
      · refine Or.inr ⟨e, by simp, rfl, hr, ?_⟩
        rw [RedisCache.tagKey_inj hk]
        exact ht'
      · exact Or.inr ⟨e', List.mem_cons_of_mem e he', h'⟩
    · rintro (h | ⟨e', he', hk, hr, ht⟩)
      · exact Or.inl (Or.inl h)
      · rcases List.mem_cons.mp he' with rfl | he''
        · exact Or.inl (Or.inr ⟨hr, hk.symm, t, ht, rfl⟩)
        · exact Or.inr ⟨e', he'', hk, hr, ht⟩

/-! ## Claim C2: tag invalidation completeness -/

/-- C2: for every trace of set calls and every tag list T, after
invalidateTags(T): a get on every key that was stored with any tag in T
misses (at any instant), the member sets of the tags in T are cleared, and
every key whose stores all used tags disjoint from T still returns the value
it returned before. -/
theorem invalidateTags_completeness (cfgTtl : Option Int) (evs : List SetEvent)
    (T : List String) :
    (∀ k, (∃ e ∈ evs, ∃ t ∈ T, e.storesWithTag cfgTtl k t) →
      ∀ now, RedisCache.redisGet
        ((RedisCache.invalidateTags (runSets cfgTtl RedisState.init evs) T).2)
        now k = none) ∧
    (∀ t ∈ T, RedisCache.smembers
        ((RedisCache.invalidateTags (runSets cfgTtl RedisState.init evs) T).2)
        (RedisCache.tagKey t) = []) ∧
    (∀ k now v, (∀ e ∈ evs, e.key = k → ∀ t ∈ e.tags, t ∉ T) →
      RedisCache.redisGet (runSets cfgTtl RedisState.init evs) now k = some v →
      RedisCache.redisGet
        ((RedisCache.invalidateTags (runSets cfgTtl RedisState.init evs) T).2)
        now k = some v) := by
  refine ⟨?_, ?_, ?_⟩
  · rintro k ⟨e, he, t, ht, hkt⟩ now
    have hmem : k ∈ RedisCache.smembers (runSets cfgTtl RedisState.init evs)
        (RedisCache.tagKey t) :=
      (smembers_runSets cfgTtl RedisState.init evs t k).mpr (Or.inr ⟨e, he, hkt⟩)
    exact RedisCache.redisGet_of_rawLookup_none
      (RedisCache.rawLookup_invalidateTags_mem _ T ht hmem) now
  · intro t ht
    exact RedisCache.smembers_invalidateTags_mem _ T ht
  · intro k now v hdisj hget
    have hnot : ∀ t ∈ T, k ∉ RedisCache.smembers (runSets cfgTtl RedisState.init evs)
        (RedisCache.tagKey t) := by
      intro t ht hmem
      rcases (smembers_runSets cfgTtl RedisState.init evs t k).mp hmem with
        h0 | ⟨e, he, hk, hr, hte⟩
      · exact (List.not_mem_nil k) h0
      · exact hdisj e he hk t hte ht
    rw [RedisCache.redisGet_congr
      (RedisCache.rawLookup_invalidateTags_not_mem _ T k hnot) now]
    exact hget

/-- Witness for C2 at a concrete trace: key a stored with tag g, key b with
tag h; after invalidateTags(["g"]), a misses, g's set is empty, b survives. -/
theorem invalidateTags_completeness_witness :
    RedisCache.redisGet
      ((RedisCache.invalidateTags (runSets none RedisState.init
        [⟨0, "a", "va", some 10, ["g"]⟩, ⟨0, "b", "vb", some 10, ["h"]⟩])
        ["g"]).2) 1 "a" = none ∧
    RedisCache.smembers
      ((RedisCache.invalidateTags (runSets none RedisState.init
        [⟨0, "a", "va", some 10, ["g"]⟩, ⟨0, "b", "vb", some 10, ["h"]⟩])
        ["g"]).2) (RedisCache.tagKey "g") = [] ∧
    RedisCache.redisGet
      ((RedisCache.invalidateTags (runSets none RedisState.init
        [⟨0, "a", "va", some 10, ["g"]⟩, ⟨0, "b", "vb", some 10, ["h"]⟩])
        ["g"]).2) 1 "b" = some "vb" :=
  ⟨(invalidateTags_completeness none
      [⟨0, "a", "va", some 10, ["g"]⟩, ⟨0, "b", "vb", some 10, ["h"]⟩] ["g"]).1
      "a" (by decide) 1,
   (invalidateTags_completeness none
      [⟨0, "a", "va", some 10, ["g"]⟩, ⟨0, "b", "vb", some 10, ["h"]⟩] ["g"]).2.1
      "g" (by decide),
   (invalidateTags_completeness none
      [⟨0, "a", "va", some 10, ["g"]⟩, ⟨0, "b", "vb", some 10, ["h"]⟩] ["g"]).2.2
      "b" 1 "vb" (by decide) (by decide)⟩

/-! ## Claim C4: non-positive TTL handling in set -/

/-- C4 counterexample: a set call with ttl 0 does not fail with an error —
it succeeds (returns true) and stores the entry under the instance default
TTL of 3600 — while a set with ttl −1 fails with a generic caught store
error (returns false) instead of clamping; so non-positive TTLs are neither
uniformly rejected nor uniformly clamped to a documented minimum. -/
theorem set_nonpositive_ttl_counterexample :
    (RedisCache.set none RedisState.init 0 "k" "v" (some 0) []).1 = true ∧
    RedisCache.rawLookup
      ((RedisCache.set none RedisState.init 0 "k" "v" (some 0) []).2) "k" =
      some ("v", 3600) ∧
    (RedisCache.set none RedisState.init 0 "k" "v" (some (-1)) []).1 = false ∧
    RedisCache.rawLookup
      ((RedisCache.set none RedisState.init 0 "k" "v" (some (-1)) []).2) "k" =
      none := by decide

/-- C4 amended: a set with a positive integer TTL succeeds and stores the
entry under that TTL; a set with a negative TTL fails (returns false,
counting a store error) and leaves the store unchanged; a set with ttl 0
behaves exactly as a set with the ttl option omitted — the falsy value falls
through to the instance default TTL. -/
theorem set_ttl_amended (cfgTtl : Option Int) (st : RedisState) (now : Int)
    (k v : String) (tags : List String) :
    (∀ t : Int, 0 < t →
      (RedisCache.set cfgTtl st now k v (some t) tags).1 = true ∧
      RedisCache.rawLookup ((RedisCache.set cfgTtl st now k v (some t) tags).2) k =
        some (v, now + t)) ∧
    (∀ t : Int, t < 0 →
      (RedisCache.set cfgTtl st now k v (some t) tags).1 = false ∧
      ((RedisCache.set cfgTtl st now k v (some t) tags).2).store = st.store) ∧
    RedisCache.set cfgTtl st now k v (some 0) tags =
      RedisCache.set cfgTtl st now k v none tags := by
  have hres : ∀ t : Int, t ≠ 0 →
      RedisCache.resolveTtl (some t) cfgTtl = t := by
    intro t ht
    simp [RedisCache.resolveTtl, RedisCache.orFalsy, ht]
  refine ⟨?_, ?_, ?_⟩
  · intro t ht
    have h0 : 0 < RedisCache.resolveTtl (some t) cfgTtl := by
      rw [hres t (by omega)]; exact ht
    refine ⟨(RedisCache.set_fst _ _ _ _ _ _ _).mpr h0, ?_⟩
    rw [RedisCache.rawLookup_set_self _ _ _ _ _ _ _ h0, hres t (by omega)]
  · intro t ht
    have h0 : ¬ 0 < RedisCache.resolveTtl (some t) cfgTtl := by
      rw [hres t (by omega)]; omega
    constructor
    · cases hb : (RedisCache.set cfgTtl st now k v (some t) tags).1
      · rfl
      · exact absurd ((RedisCache.set_fst _ _ _ _ _ _ _).mp hb) h0
    · rw [RedisCache.store_set, if_neg h0]
  · have : RedisCache.resolveTtl (some 0) cfgTtl =
        RedisCache.resolveTtl none cfgTtl := by
      simp [RedisCache.resolveTtl, RedisCache.orFalsy]
    unfold RedisCache.set
    rw [this]

/-- Witness for C4 amended at ttl 7 and ttl −2. -/
theorem set_ttl_amended_witness :
    ((RedisCache.set none RedisState.init 5 "k" "v" (some 7) ["g"]).1 = true ∧
      RedisCache.rawLookup
        ((RedisCache.set none RedisState.init 5 "k" "v" (some 7) ["g"]).2) "k" =
        some ("v", 12)) ∧
    ((RedisCache.set none RedisState.init 5 "k" "v" (some (-2)) ["g"]).1 = false ∧
      ((RedisCache.set none RedisState.init 5 "k" "v" (some (-2)) ["g"]).2).store =
        RedisState.init.store) :=
  ⟨(set_ttl_amended none RedisState.init 5 "k" "v" ["g"]).1 7 (by decide),
   (set_ttl_amended none RedisState.init 5 "k" "v" ["g"]).2.1 (-2) (by decide)⟩

/-! ## Claim C5: invalidation count versus live keys -/

/-- C5 counterexample: the concrete scenario of the specification — key a
set with ttl 2 and tag g at time 0 (hit at time 0, miss at time 3), key b
set with ttl 100 and tag g at time 3 — where invalidateTags(["g"]) returns
2, the size of the tag set including the expired key a, not 1. -/
theorem invalidateTags_live_count_counterexample :
    (RedisCache.get
        ((RedisCache.set none RedisState.init 0 "a" "va" (some 2) ["g"]).2)
        0 "a").1 = some "va" ∧
    (RedisCache.get
        ((RedisCache.set none RedisState.init 0 "a" "va" (some 2) ["g"]).2)
        3 "a").1 = none ∧
    (RedisCache.invalidateTags
        ((RedisCache.set none
          ((RedisCache.set none RedisState.init 0 "a" "va" (some 2) ["g"]).2)
          3 "b" "vb" (some 100) ["g"]).2) ["g"]).1 = 2 ∧
    ¬ (RedisCache.invalidateTags
        ((RedisCache.set none
          ((RedisCache.set none RedisState.init 0 "a" "va" (some 2) ["g"]).2)
          3 "b" "vb" (some 100) ["g"]).2) ["g"]).1 = 1 ∧
    RedisCache.redisGet
      ((RedisCache.invalidateTags
        ((RedisCache.set none
          ((RedisCache.set none RedisState.init 0 "a" "va" (some 2) ["g"]).2)
          3 "b" "vb" (some 100) ["g"]).2) ["g"]).2) 3 "b" = none := by decide

/-- C5 amended: invalidateTag returns the number of keys recorded in the
tag's member set — every key ever stored with the tag and not invalidated
since, whether or not it is still live — and in the specification's scenario
invalidateTags(["g"]) therefore returns 2. -/
theorem invalidateTag_count_amended :
    (∀ (st : RedisState) (tag : String),
      (RedisCache.invalidateTag st tag).1 =
        (RedisCache.smembers st (RedisCache.tagKey tag)).length) ∧
    (RedisCache.invalidateTags
        ((RedisCache.set none
          ((RedisCache.set none RedisState.init 0 "a" "va" (some 2) ["g"]).2)
          3 "b" "vb" (some 100) ["g"]).2) ["g"]).1 = 2 :=
  ⟨RedisCache.invalidateTag_fst, by decide⟩

/-! ## Claim C3: stale-while-revalidate -/

/-- RedisCache.get on a live entry. -/
theorem RedisCache.get_of_live {st : RedisState} {k v : String} {e : Int}
    (hraw : RedisCache.rawLookup st k = some (v, e)) {now : Int} (hlt : now < e) :
    RedisCache.get st now k = (some v, { st with hits := st.hits + 1 }) := by
  unfold RedisCache.get RedisCache.redisGet
  rw [hraw]
  simp [hlt]

/-- RedisCache.get on a miss. -/
theorem RedisCache.get_of_miss {st : RedisState} {k : String} {now : Int}
    (h : RedisCache.redisGet st now k = none) :
    RedisCache.get st now k = (none, { st with misses := st.misses + 1 }) := by
  unfold RedisCache.get
  rw [h]

/-- C3: getWithRevalidate with a live cached entry (stored at instant ts
with hard TTL htl) returns the cached value; within staleTime it performs no
synchronous fetch, and past staleTime (but within the hard TTL) it returns
the old value and schedules a background refresh.  On a total miss (expired
or absent) it blocks on the fetch and the fetched value is stored — and
readable — before the call returns. -/
theorem getWithRevalidate_swr (cfgTtl : Option Int) (st : RedisState)
    (k v fv : String) (ts htl : Int) (now : Int) (optTtl : Option Int)
    (staleT : Int) (tags : List String) :
    (RedisCache.rawLookup st k = some (v, ts + htl) → now < ts + htl →
      now - ts ≤ staleT →
      (getWithRevalidate cfgTtl st now k fv optTtl (some staleT) tags).1 = v ∧
      (getWithRevalidate cfgTtl st now k fv optTtl (some staleT) tags).2.2.2 = 0) ∧
    (RedisCache.rawLookup st k = some (v, ts + htl) → now < ts + htl →
      staleT < now - ts →
      (getWithRevalidate cfgTtl st now k fv optTtl (some staleT) tags).1 = v ∧
      (getWithRevalidate cfgTtl st now k fv optTtl (some staleT) tags).2.2.1 = true) ∧
    (RedisCache.redisGet st now k = none →
      0 < RedisCache.resolveTtl optTtl cfgTtl →
      (getWithRevalidate cfgTtl st now k fv optTtl (some staleT) tags).1 = fv ∧
      (getWithRevalidate cfgTtl st now k fv optTtl (some staleT) tags).2.2.2 = 1 ∧
      RedisCache.redisGet
        ((getWithRevalidate cfgTtl st now k fv optTtl (some staleT) tags).2.1)
        now k = some fv) := by
  refine ⟨?_, ?_, ?_⟩
  · intro hraw hlt hstale
    unfold getWithRevalidate
    rw [RedisCache.get_of_live hraw hlt]
    exact ⟨rfl, rfl⟩
  · intro hraw hlt hstale
    unfold getWithRevalidate
    rw [RedisCache.get_of_live hraw hlt]
    exact ⟨rfl, rfl⟩
  · intro hmiss h0
    unfold getWithRevalidate
    rw [RedisCache.get_of_miss hmiss]
    refine ⟨rfl, rfl, ?_⟩
    show RedisCache.redisGet ((RedisCache.set cfgTtl _ now k fv optTtl tags).2) now k = some fv
    unfold RedisCache.redisGet
    rw [RedisCache.rawLookup_set_self _ _ _ _ _ _ _ h0]
    simp [(by omega : now < now + RedisCache.resolveTtl optTtl cfgTtl)]

/-- Witness for C3: a fresh entry within staleTime, a stale entry past
staleTime but within its TTL, and a total miss. -/
theorem getWithRevalidate_swr_witness :
    ((getWithRevalidate none ⟨[("k", "v", 10)], [], 0, 0, 0, 0, 0⟩ 1 "k" "f"
        none (some 5) []).1 = "v" ∧
      (getWithRevalidate none ⟨[("k", "v", 10)], [], 0, 0, 0, 0, 0⟩ 1 "k" "f"
        none (some 5) []).2.2.2 = 0) ∧
    ((getWithRevalidate none ⟨[("k", "v", 10)], [], 0, 0, 0, 0, 0⟩ 7 "k" "f"
        none (some 5) []).1 = "v" ∧
      (getWithRevalidate none ⟨[("k", "v", 10)], [], 0, 0, 0, 0, 0⟩ 7 "k" "f"
        none (some 5) []).2.2.1 = true) ∧
    ((getWithRevalidate none RedisState.init 0 "k" "f" none (some 5) []).1 = "f" ∧
      (getWithRevalidate none RedisState.init 0 "k" "f" none (some 5) []).2.2.2 = 1 ∧
      RedisCache.redisGet
        ((getWithRevalidate none RedisState.init 0 "k" "f" none (some 5) []).2.1)
        0 "k" = some "f") :=
  ⟨(getWithRevalidate_swr none ⟨[("k", "v", 10)], [], 0, 0, 0, 0, 0⟩ "k" "v" "f"
      0 10 1 none 5 []).1 (by decide) (by decide) (by decide),
   (getWithRevalidate_swr none ⟨[("k", "v", 10)], [], 0, 0, 0, 0, 0⟩ "k" "v" "f"
      0 10 7 none 5 []).2.1 (by decide) (by decide) (by decide),
   (getWithRevalidate_swr none RedisState.init "k" "v" "f" 0 10 0 none 5
      []).2.2 (by decide) (by decide)⟩

/-! ## Claim C1: the thundering-herd guard of getOrSet -/

theorem countP_set_add (l : List α) (i : Nat) (b : α) (p : α → Bool)
    (h : i < l.length) :
    (l.set i b).countP p + (if p (l.get ⟨i, h⟩) then 1 else 0) =
      l.countP p + (if p b then 1 else 0) := by
  induction l generalizing i with
  | nil => cases h
  | cons a as ih =>
    cases i with
    | zero =>
      simp only [List.set, List.countP_cons, List.get]
      omega
    | succ j =>
      have hj : j < as.length := by simpa using h
      simp only [List.set, List.countP_cons, List.get]
      have := ih j hj
      omega

/-- The number of callers still before their GET. -/
def startCount (st : HerdState) : Nat :=
  st.callers.countP (fun c => decide (c = GoPc.start))

theorem herdStep_measure (st : HerdState) (i : Nat) :
    (herdStep st i).fetchCount + startCount (herdStep st i) ≤
      st.fetchCount + startCount st := by
  unfold herdStep
  cases hgi : st.callers.get? i with
  | none => exact le_refl _
  | some c =>
    obtain ⟨hlen, hget⟩ := List.get?_eq_some.mp hgi
    cases c with
    | start =>
      cases hc : st.cache with
      | some v =>
        have hcnt := countP_set_add st.callers i GoPc.done
          (fun c => decide (c = GoPc.start)) hlen
        rw [hget] at hcnt
        simp at hcnt
        dsimp only [startCount]
        omega
      | none =>
        have hcnt := countP_set_add st.callers i GoPc.fetching
          (fun c => decide (c = GoPc.start)) hlen
        rw [hget] at hcnt
        simp at hcnt
        dsimp only [startCount]
        omega
    | fetching =>
      have hcnt := countP_set_add st.callers i GoPc.done
        (fun c => decide (c = GoPc.start)) hlen
      rw [hget] at hcnt
      simp at hcnt
      dsimp only [startCount]
      omega
    | done => exact le_refl _

theorem herdRun_measure (sched : List Nat) (st : HerdState) :
    (herdRun st sched).fetchCount + startCount (herdRun st sched) ≤
      st.fetchCount + startCount st := by
  induction sched generalizing st with
  | nil => exact le_refl _
  | cons i is ih =>
    calc (herdRun st (i :: is)).fetchCount + startCount (herdRun st (i :: is))
        ≤ (herdStep st i).fetchCount + startCount (herdStep st i) := ih (herdStep st i)
      _ ≤ st.fetchCount + startCount st := herdStep_measure st i

/-- C1 counterexample: two concurrent getOrSet calls for the same missing
key, interleaved so that both await their GET before either has stored
(schedule: caller 0 runs to its first await, then caller 1), invoke the
fetch function twice — more than the claimed at-most-once. -/
theorem getOrSet_thundering_herd_counterexample :
    (herdRun (herdInit 2) [0, 1]).fetchCount = 2 ∧
    1 < (herdRun (herdInit 2) [0, 1]).fetchCount := by decide

/-- C1 amended: getOrSet has no coalescing guard — each of the N concurrent
callers can invoke the fetch function, once each, so N concurrent getOrSet
calls for the same missing key invoke it at most N times in total (a caller
fetches only after observing a miss, and a caller that observes a stored
value returns it without fetching). -/
theorem getOrSet_thundering_herd_amended (n : Nat) (sched : List Nat) :
    (herdRun (herdInit n) sched).fetchCount ≤ n := by
  have h := herdRun_measure sched (herdInit n)
  have hinit : startCount (herdInit n) = n := by
    simp [startCount, herdInit, List.countP_replicate]
  have hfetch : (herdInit n).fetchCount = 0 := rfl
  omega

/-! ## Claims C6 and C7: the connection pool -/

/-- The pool's structural invariant: the active count equals the number of
running operations, which never exceeds the limit. -/
def PoolBound (st : PoolState) : Prop :=
  st.active = (st.running.length : Int) ∧ st.running.length ≤ 20

theorem poolProcessQueue_bound {st : PoolState} (h : PoolBound st) :
    PoolBound (poolProcessQueue st) := by
  obtain ⟨ha, hl⟩ := h
  unfold poolProcessQueue
  cases hq : st.queue with
  | nil => exact ⟨ha, hl⟩
  | cons a rest =>
    dsimp only
    by_cases hlt : st.active < maxConnections
    · rw [if_pos hlt]
      refine ⟨?_, ?_⟩
      · simp only [List.length_cons]
        push_cast
        omega
      · simp only [List.length_cons]
        simp only [maxConnections] at hlt
        omega
    · rw [if_neg hlt]
      exact ⟨ha, hl⟩

theorem poolStep_bound {st : PoolState} (e : PoolEvent) (h : PoolBound st) :
    PoolBound (poolStep st e) := by
  obtain ⟨ha, hl⟩ := h
  cases e with
  | arrive =>
    unfold poolStep
    dsimp only
    by_cases hlt : st.active < maxConnections
    · rw [if_pos hlt]
      refine ⟨?_, ?_⟩
      · simp only [List.length_cons]
        push_cast
        omega
      · simp only [List.length_cons]
        simp only [maxConnections] at hlt
        omega
    · rw [if_neg hlt]
      exact ⟨ha, hl⟩
  | fire id =>
    unfold poolStep
    dsimp only
    by_cases hp : id ∈ st.timerPending
    · rw [if_pos hp]
      exact ⟨ha, hl⟩
    · rw [if_neg hp]
      exact ⟨ha, hl⟩
  | complete id =>
    unfold poolStep
    dsimp only
    by_cases hr : id ∈ st.running
    · rw [if_pos hr]
      apply poolProcessQueue_bound
      have herase : (st.running.erase id).length + 1 = st.running.length :=
        List.length_erase_add_one hr
      refine ⟨?_, ?_⟩
      · dsimp only
        omega
      · dsimp only
        omega
    · rw [if_neg hr]
      exact ⟨ha, hl⟩

/-- A ticket is accounted for: its operation has started, or its promise was
rejected by the timeout, or its rejection timer is still armed. -/
def TicketResolved (st : PoolState) (id : Nat) : Prop :=
  id ∈ st.executed ∨ id ∈ st.timedOut ∨ id ∈ st.timerPending

/-- Every ticket ever queued is accounted for. -/
def AllTicketsResolved (st : PoolState) : Prop :=
  ∀ id ∈ st.enqueuedEver, TicketResolved st id

theorem poolProcessQueue_resolved {st : PoolState} (h : AllTicketsResolved st)
    (henq : (poolProcessQueue st).enqueuedEver = st.enqueuedEver) :
    AllTicketsResolved (poolProcessQueue st) := by
  intro id hid
  rw [henq] at hid
  unfold poolProcessQueue
  cases hq : st.queue with
  | nil => exact h id hid
  | cons a rest =>
    dsimp only
    by_cases hlt : st.active < maxConnections
    · rw [if_pos hlt]
      rcases h id hid with hx | hx | hx
      · exact Or.inl (List.mem_append_left _ hx)
      · exact Or.inr (Or.inl hx)
      · by_cases hia : id = a
        · exact Or.inl (List.mem_append_right _ (hia ▸ List.mem_singleton_self _))
        · exact Or.inr (Or.inr ((List.mem_erase_of_ne hia).mpr hx))
    · rw [if_neg hlt]
      exact h id hid

theorem poolStep_resolved {st : PoolState} (e : PoolEvent)
    (h : AllTicketsResolved st) : AllTicketsResolved (poolStep st e) := by
  cases e with
  | arrive =>
    unfold poolStep
    dsimp only
    by_cases hlt : st.active < maxConnections
    · rw [if_pos hlt]
      intro id hid
      rcases h id hid with hx | hx | hx
      · exact Or.inl (List.mem_append_left _ hx)
      · exact Or.inr (Or.inl hx)
      · exact Or.inr (Or.inr hx)
    · rw [if_neg hlt]
      intro id hid
      rcases List.mem_append.mp hid with hid' | hid'
      · rcases h id hid' with hx | hx | hx
        · exact Or.inl hx
        · exact Or.inr (Or.inl hx)
        · exact Or.inr (Or.inr (List.mem_cons_of_mem _ hx))
      · have : id = st.nextId := List.mem_singleton.mp hid'
        exact Or.inr (Or.inr (this ▸ List.mem_cons_self _ _))
  | fire i =>
    unfold poolStep
    dsimp only
    by_cases hp : i ∈ st.timerPending
    · rw [if_pos hp]
      intro id hid
      rcases h id hid with hx | hx | hx
      · exact Or.inl hx
      · exact Or.inr (Or.inl (List.mem_cons_of_mem _ hx))
      · by_cases hii : id = i
        · exact Or.inr (Or.inl (hii ▸ List.mem_cons_self _ _))
        · exact Or.inr (Or.inr ((List.mem_erase_of_ne hii).mpr hx))
    · rw [if_neg hp]
      exact h
  | complete i =>
    unfold poolStep
    dsimp only
    by_cases hr : i ∈ st.running
    · rw [if_pos hr]
      exact @poolProcessQueue_resolved
        { st with running := st.running.erase i, active := st.active - 1 }
        (fun id hid => h id hid) (by
          unfold poolProcessQueue
          dsimp only
          cases hq : st.queue with
          | nil => rfl
          | cons a rest =>
            dsimp only
            by_cases hlt : (st.active - 1) < maxConnections
            · rw [if_pos hlt]
            · rw [if_neg hlt])
    · rw [if_neg hr]
      exact h

theorem poolRun_bound_resolved (evs : List PoolEvent) :
    PoolBound (poolRun poolInit evs) ∧
      AllTicketsResolved (poolRun poolInit evs) := by
  suffices hstep : ∀ (evs : List PoolEvent) (st : PoolState),
      PoolBound st → AllTicketsResolved st →
      PoolBound (poolRun st evs) ∧ AllTicketsResolved (poolRun st evs) by
    refine hstep evs poolInit ⟨rfl, by simp [poolInit]⟩ ?_
    intro id hid
    cases hid
  intro evs
  induction evs with
  | nil => exact fun st hb hr => ⟨hb, hr⟩
  | cons e es ih =>
    intro st hb hr
    exact ih (poolStep st e) (poolStep_bound e hb) (poolStep_resolved e hr)

/-- Firing the armed timer of a queued ticket rejects it. -/
theorem poolStep_fire_timedOut {st : PoolState} {id : Nat}
    (h : id ∈ st.timerPending) :
    id ∈ (poolStep st (PoolEvent.fire id)).timedOut := by
  unfold poolStep
  dsimp only
  rw [if_pos h]
  exact List.mem_cons_self _ _

/-- C7: under every event sequence, the pool's active count stays between 0
and the configured limit of 20, and every ticket that was ever queued is
accounted for — its operation has started, or it was explicitly rejected by
its timeout, or its rejection timer is still armed and firing that timer
rejects it (so no ticket is dropped silently). -/
theorem pool_gate_invariants (evs : List PoolEvent) :
    (0 ≤ (poolRun poolInit evs).active ∧ (poolRun poolInit evs).active ≤ 20) ∧
    (∀ id ∈ (poolRun poolInit evs).enqueuedEver,
      id ∈ (poolRun poolInit evs).executed ∨
      id ∈ (poolRun poolInit evs).timedOut ∨
      (id ∈ (poolRun poolInit evs).timerPending ∧
        id ∈ (poolStep (poolRun poolInit evs) (PoolEvent.fire id)).timedOut)) := by
  obtain ⟨⟨ha, hl⟩, hres⟩ := poolRun_bound_resolved evs
  refine ⟨⟨?_, ?_⟩, ?_⟩
  · rw [ha]
    positivity
  · rw [ha]
    exact_mod_cast hl
  · intro id hid
    rcases hres id hid with hx | hx | hx
    · exact Or.inl hx
    · exact Or.inr (Or.inl hx)
    · exact Or.inr (Or.inr ⟨hx, poolStep_fire_timedOut hx⟩)

/-- Witness for C7: twenty-one arrivals fill the pool and queue ticket 20. -/
theorem pool_gate_invariants_witness :
    (0 ≤ (poolRun poolInit (List.replicate 21 PoolEvent.arrive)).active ∧
      (poolRun poolInit (List.replicate 21 PoolEvent.arrive)).active ≤ 20) ∧
    (20 ∈ (poolRun poolInit (List.replicate 21 PoolEvent.arrive)).executed ∨
      20 ∈ (poolRun poolInit (List.replicate 21 PoolEvent.arrive)).timedOut ∨
      (20 ∈ (poolRun poolInit (List.replicate 21 PoolEvent.arrive)).timerPending ∧
        20 ∈ (poolStep (poolRun poolInit (List.replicate 21 PoolEvent.arrive))
          (PoolEvent.fire 20)).timedOut)) :=
  ⟨(pool_gate_invariants (List.replicate 21 PoolEvent.arrive)).1,
   (pool_gate_invariants (List.replicate 21 PoolEvent.arrive)).2 20 (by decide)⟩

/-- C6 counterexample: fill the pool with 20 operations, queue a 21st call
(ticket 20), let its deadline elapse (the promise is rejected with the pool
timeout), then complete one running operation.  The rejected ticket was
never removed from the wait queue, and its wrapped operation is executed
after the timeout rejection — contradicting both removal and never-run. -/
theorem pool_timeout_counterexample :
    20 ∈ (poolRun poolInit (List.replicate 21 PoolEvent.arrive ++
      [PoolEvent.fire 20])).timedOut ∧
    20 ∈ (poolRun poolInit (List.replicate 21 PoolEvent.arrive ++
      [PoolEvent.fire 20])).queue ∧
    20 ∈ (poolRun poolInit (List.replicate 21 PoolEvent.arrive ++
      [PoolEvent.fire 20, PoolEvent.complete 0])).timedOut ∧
    20 ∈ (poolRun poolInit (List.replicate 21 PoolEvent.arrive ++
      [PoolEvent.fire 20, PoolEvent.complete 0])).executed := by decide

/-- C6 amended: when a queued gate caller's deadline elapses, the call fails
with the pool-timeout rejection and the timeout statistic is incremented,
but the ticket is not removed from the wait queue; when a slot later frees,
the oldest queued closure — even one whose promise was already rejected — is
still invoked and its wrapped operation runs (the late result is discarded
by the already-settled promise). -/
theorem pool_timeout_amended (st : PoolState) (id j : Nat) :
    (id ∈ st.timerPending →
      id ∈ (poolStep st (PoolEvent.fire id)).timedOut ∧
      (poolStep st (PoolEvent.fire id)).queue = st.queue ∧
      (poolStep st (PoolEvent.fire id)).timeoutCount = st.timeoutCount + 1) ∧
    (∀ rest, st.queue = id :: rest → j ∈ st.running →
      st.active ≤ maxConnections →
      id ∈ (poolStep st (PoolEvent.complete j)).executed) := by
  constructor
  · intro hp
    unfold poolStep
    dsimp only
    rw [if_pos hp]
    exact ⟨List.mem_cons_self _ _, rfl, rfl⟩
  · intro rest hq hj hle
    unfold poolStep
    dsimp only
    rw [if_pos hj]
    unfold poolProcessQueue
    dsimp only
    simp only [hq]
    rw [if_pos (by simp only [maxConnections] at hle ⊢; omega)]
    exact List.mem_append_right _ (List.mem_singleton_self _)

/-- Witness for C6 amended: the pool after 21 arrivals (part one), and after
additionally firing ticket 20's timer (part two, completing operation 0). -/
theorem pool_timeout_amended_witness :
    (20 ∈ (poolStep (poolRun poolInit (List.replicate 21 PoolEvent.arrive))
        (PoolEvent.fire 20)).timedOut ∧
      (poolStep (poolRun poolInit (List.replicate 21 PoolEvent.arrive))
        (PoolEvent.fire 20)).queue =
        (poolRun poolInit (List.replicate 21 PoolEvent.arrive)).queue ∧
      (poolStep (poolRun poolInit (List.replicate 21 PoolEvent.arrive))
        (PoolEvent.fire 20)).timeoutCount =
        (poolRun poolInit (List.replicate 21 PoolEvent.arrive)).timeoutCount + 1) ∧
    20 ∈ (poolStep (poolRun poolInit (List.replicate 21 PoolEvent.arrive ++
        [PoolEvent.fire 20])) (PoolEvent.complete 0)).executed :=
  ⟨(pool_timeout_amended (poolRun poolInit (List.replicate 21 PoolEvent.arrive))
      20 0).1 (by decide),
   (pool_timeout_amended (poolRun poolInit (List.replicate 21 PoolEvent.arrive ++
      [PoolEvent.fire 20])) 20 0).2 [] (by decide) (by decide) (by decide)⟩

/-! ## Claim C8: the batching data loader -/

theorem load_foldl_no_memo [DecidableEq K] (loads : List K)
    (st : LoaderState K V E) (h : st.memo = none) :
    loads.foldl DataLoader.load st = { st with queue := st.queue ++ loads } := by
  induction loads generalizing st with
  | nil => simp
  | cons k ks ih =>
    show ks.foldl DataLoader.load (DataLoader.load st k) = _
    have hload : DataLoader.load st k = { st with queue := st.queue ++ [k] } := by
      unfold DataLoader.load
      rw [h]
    rw [hload, ih _ (by rw [h])]
    simp

theorem settleAll_get? (ks : List K) (rs : List (Except E V)) (i : Nat) :
    (settleAll ks rs).get? i = (ks.get? i).map (fun k => (k,
      match rs.get? i with
      | some (Except.error e) => LoadOutcome.rejectedWith e
      | some (Except.ok v) => LoadOutcome.resolvedWith v
      | none => LoadOutcome.resolvedUndef)) := by
  induction ks generalizing rs i with
  | nil => simp [settleAll]
  | cons k ks ih =>
    cases rs with
    | nil =>
      cases i with
      | zero => simp [settleAll]
      | succ j =>
        show (settleAll ks ([] : List (Except E V))).get? j = _
        rw [ih]
        rfl
    | cons r rs =>
      cases i with
      | zero => cases r <;> simp [settleAll]
      | succ j =>
        show (settleAll ks rs).get? j = _
        rw [ih]
        rfl

/-- C8: executing a batch built from a sequence of load calls (memoization
off) invokes batchFn exactly once, on the pending keys in enqueue order, and
settles each pending future purely from the result at its own position: an
Error result rejects only that future, an ok result resolves its future, and
the other futures of the batch are unaffected. -/
theorem dataLoader_batch_isolation [DecidableEq K] (loads : List K)
    (batchFn : List K → Except E (List (Except E V))) :
    ((loads.foldl DataLoader.load (loaderInit false : LoaderState K V E)).queue
      = loads) ∧
    ((DataLoader.executeBatch batchFn
        (loads.foldl DataLoader.load (loaderInit false : LoaderState K V E))).calls
      = [loads]) ∧
    (∀ results, batchFn loads = Except.ok results →
      ∀ i k, loads.get? i = some k →
        (DataLoader.executeBatch batchFn
          (loads.foldl DataLoader.load (loaderInit false : LoaderState K V E))).settled.get? i =
          some (k, match results.get? i with
            | some (Except.error e) => LoadOutcome.rejectedWith e
            | some (Except.ok v) => LoadOutcome.resolvedWith v
            | none => LoadOutcome.resolvedUndef)) := by
  have hst : loads.foldl DataLoader.load (loaderInit false : LoaderState K V E) =
      { memo := none, queue := loads, calls := [], settled := [] } := by
    rw [load_foldl_no_memo loads _ rfl]
    rfl
  refine ⟨by rw [hst], ?_, ?_⟩
  · rw [hst]
    unfold DataLoader.executeBatch
    dsimp only
    cases batchFn loads <;> rfl
  · intro results hok i k hik
    rw [hst]
    unfold DataLoader.executeBatch
    dsimp only
    rw [hok]
    dsimp only
    rw [List.nil_append, settleAll_get?, hik]
    rfl

/-- Witness for C8: two loads a, b; the batch result is an Error for a and
the value 7 for b — a is rejected, b still resolves. -/
theorem dataLoader_batch_isolation_witness :
    ((["a", "b"].foldl DataLoader.load
        (loaderInit false : LoaderState String Nat String)).queue = ["a", "b"]) ∧
    ((DataLoader.executeBatch
        (fun _ => Except.ok [Except.error "boom", Except.ok 7])
        (["a", "b"].foldl DataLoader.load
          (loaderInit false : LoaderState String Nat String))).settled.get? 0 =
      some ("a", LoadOutcome.rejectedWith "boom")) ∧
    ((DataLoader.executeBatch
        (fun _ => Except.ok [Except.error "boom", Except.ok 7])
        (["a", "b"].foldl DataLoader.load
          (loaderInit false : LoaderState String Nat String))).settled.get? 1 =
      some ("b", LoadOutcome.resolvedWith 7)) :=
  ⟨(dataLoader_batch_isolation ["a", "b"]
      (fun _ => Except.ok [Except.error "boom", Except.ok 7])).1,
   (dataLoader_batch_isolation ["a", "b"]
      (fun _ => Except.ok [Except.error "boom", Except.ok 7])).2.2
      [Except.error "boom", Except.ok 7] rfl 0 "a" rfl,
   (dataLoader_batch_isolation ["a", "b"]
      (fun _ => Except.ok [Except.error "boom", Except.ok 7])).2.2
      [Except.error "boom", Except.ok 7] rfl 1 "b" rfl⟩

/-! ## Claim C9: the N+1 query detector -/

theorem char_toNat_ofNat (n : Nat) (h : n < 55296) : (Char.ofNat n).toNat = n := by
  rw [Char.ofNat, dif_pos (Or.inl h)]
  rfl

theorem isUpper_iff_toNat (c : Char) :
    c.isUpper = true ↔ 65 ≤ c.toNat ∧ c.toNat ≤ 90 := by
  unfold Char.isUpper
  rw [Bool.and_eq_true, decide_eq_true_iff, decide_eq_true_iff]
  constructor
  · rintro ⟨h1, h2⟩
    rw [ge_iff_le, UInt32.le_def, BitVec.le_def] at h1
    rw [UInt32.le_def, BitVec.le_def] at h2
    exact ⟨h1, h2⟩
  · rintro ⟨h1, h2⟩
    constructor
    · rw [ge_iff_le, UInt32.le_def, BitVec.le_def]
      exact h1
    · rw [UInt32.le_def, BitVec.le_def]
      exact h2

theorem isDigit_iff_toNat (c : Char) :
    c.isDigit = true ↔ 48 ≤ c.toNat ∧ c.toNat ≤ 57 := by
  unfold Char.isDigit
  rw [Bool.and_eq_true, decide_eq_true_iff, decide_eq_true_iff]
  constructor
  · rintro ⟨h1, h2⟩
    rw [ge_iff_le, UInt32.le_def, BitVec.le_def] at h1
    rw [UInt32.le_def, BitVec.le_def] at h2
    exact ⟨h1, h2⟩
  · rintro ⟨h1, h2⟩
    constructor
    · rw [ge_iff_le, UInt32.le_def, BitVec.le_def]
      exact h1
    · rw [UInt32.le_def, BitVec.le_def]
      exact h2

/-- Char.toLower never yields an upper-case letter. -/
theorem toLower_isUpper (c : Char) : (Char.toLower c).isUpper = false := by
  unfold Char.toLower
  dsimp only
  split
  · rename_i h
    obtain ⟨h1, h2⟩ := h
    have hv : (Char.ofNat (c.toNat + 32)).toNat = c.toNat + 32 :=
      char_toNat_ofNat _ (by omega)
    rw [Bool.eq_false_iff]
    intro hu
    have := (isUpper_iff_toNat _).mp hu
    rw [hv] at this
    omega
  · rename_i h
    rw [Bool.eq_false_iff]
    intro hu
    exact h ((isUpper_iff_toNat _).mp hu)

/-- Char.toLower preserves digit-ness. -/
theorem toLower_isDigit (c : Char) : (Char.toLower c).isDigit = c.isDigit := by
  unfold Char.toLower
  dsimp only
  split
  · rename_i h
    obtain ⟨h1, h2⟩ := h
    have hv : (Char.ofNat (c.toNat + 32)).toNat = c.toNat + 32 :=
      char_toNat_ofNat _ (by omega)
    have hd1 : (Char.ofNat (c.toNat + 32)).isDigit = false := by
      rw [Bool.eq_false_iff]
      intro hu
      have := (isDigit_iff_toNat _).mp hu
      rw [hv] at this
      omega
    have hd2 : c.isDigit = false := by
      rw [Bool.eq_false_iff]
      intro hu
      have := (isDigit_iff_toNat _).mp hu
      omega
    rw [hd1, hd2]
  · rfl

namespace N1QueryDetector

/-- The digit replacement leaves no digit in its output. -/
theorem wildcardDigits_no_digit (b : Bool) (l : List Char) :
    ∀ c ∈ wildcardDigits b l, c.isDigit = false := by
  induction l generalizing b with
  | nil => intro c hc; cases hc
  | cons a as ih =>
    intro c hc
    unfold wildcardDigits at hc
    by_cases hd : a.isDigit
    · rw [if_pos hd] at hc
      by_cases hb : b
      · rw [if_pos hb] at hc
        exact ih true c hc
      · rw [if_neg hb] at hc
        rcases List.mem_cons.mp hc with rfl | hc'
        · decide
        · exact ih true c hc'
    · rw [if_neg hd] at hc
      rcases List.mem_cons.mp hc with rfl | hc'
      · exact Bool.eq_false_iff.mpr hd
      · exact ih false c hc'

theorem afterClosingQuote_subset (qc : Char) (cs : List Char) :
    ∀ (rest : List Char) (hlen : rest.length < cs.length),
      afterClosingQuote qc cs = some ⟨rest, hlen⟩ → ∀ c ∈ rest, c ∈ cs := by
  induction cs with
  | nil => intro rest hlen h; cases h
  | cons a as ih =>
    intro rest hlen h c hc
    unfold afterClosingQuote at h
    by_cases ha : a = qc
    · rw [if_pos ha] at h
      have : as = rest := congrArg (fun r => Subtype.val r) (Option.some.inj h)
      exact List.mem_cons_of_mem a (this ▸ hc)
    · rw [if_neg ha] at h
      cases hrec : afterClosingQuote qc as with
      | none => rw [hrec] at h; cases h
      | some r =>
        rw [hrec] at h
        obtain ⟨rest0, hlen0⟩ := r
        have : rest0 = rest := congrArg (fun r => Subtype.val r) (Option.some.inj h)
        subst this
        exact List.mem_cons_of_mem a (ih rest0 hlen0 hrec c hc)

/-- Every output character of the quoted-literal replacement is an input
character or the wildcard. -/
theorem wildcardQuotedAux_subset (qc : Char) (fuel : Nat) (l : List Char) :
    ∀ c ∈ wildcardQuotedAux qc fuel l, c ∈ l ∨ c = '?' := by
  induction fuel generalizing l with
  | zero => intro c hc; exact Or.inl hc
  | succ f ih =>
    intro c hc
    cases l with
    | nil => cases hc
    | cons a as =>
      unfold wildcardQuotedAux at hc
      by_cases ha : a = qc
      · rw [if_pos ha] at hc
        cases hq : afterClosingQuote qc as with
        | none =>
          rw [hq] at hc
          rcases List.mem_cons.mp hc with rfl | hc'
          · exact Or.inl (List.mem_cons_self _ _)
          · rcases ih as c hc' with h | h
            · exact Or.inl (List.mem_cons_of_mem a h)
            · exact Or.inr h
        | some r =>
          rw [hq] at hc
          obtain ⟨rest, hlen⟩ := r
          rcases List.mem_cons.mp hc with rfl | hc'
          · exact Or.inr rfl
          · rcases ih rest c hc' with h | h
            · exact Or.inl (List.mem_cons_of_mem a
                (afterClosingQuote_subset qc as rest hlen hq c h))
            · exact Or.inr h
      · rw [if_neg ha] at hc
        rcases List.mem_cons.mp hc with rfl | hc'
        · exact Or.inl (List.mem_cons_self _ _)
        · rcases ih as c hc' with h | h
          · exact Or.inl (List.mem_cons_of_mem a h)
          · exact Or.inr h

theorem wildcardQuoted_subset (qc : Char) (l : List Char) :
    ∀ c ∈ wildcardQuoted qc l, c ∈ l ∨ c = '?' :=
  wildcardQuotedAux_subset qc l.length l

theorem mem_of_mem_dropWhile (p : Char → Bool) (l : List Char) :
    ∀ c ∈ l.dropWhile p, c ∈ l := by
  induction l with
  | nil => intro c hc; cases hc
  | cons a as ih =>
    intro c hc
    unfold List.dropWhile at hc
    by_cases hp : p a
    · rw [hp] at hc
      exact List.mem_cons_of_mem a (ih c hc)
    · rw [Bool.eq_false_iff.mpr hp] at hc
      exact hc

theorem mem_of_mem_jsTrim (l : List Char) : ∀ c ∈ jsTrim l, c ∈ l := by
  intro c hc
  unfold jsTrim at hc
  rw [List.mem_reverse] at hc
  have := mem_of_mem_dropWhile _ _ c hc
  rw [List.mem_reverse] at this
  exact mem_of_mem_dropWhile _ _ c this

/-- No character of a normalized shape is a digit or an upper-case letter:
numeric literals were replaced by the wildcard and the shape was
case-folded. -/
theorem normalizeQuery_no_digit_no_upper (q : String) :
    ∀ c ∈ (normalizeQuery q).data, c.isDigit = false ∧ c.isUpper = false := by
  intro c hc
  unfold normalizeQuery at hc
  have hc2 : c ∈ (wildcardQuoted (Char.ofNat 34)
      (wildcardQuoted (Char.ofNat 39) (wildcardDigits false q.data))).map
        Char.toLower :=
    mem_of_mem_jsTrim _ c hc
  rcases List.mem_map.mp hc2 with ⟨c0, hc0, rfl⟩
  refine ⟨?_, toLower_isUpper c0⟩
  rw [toLower_isDigit]
  rcases wildcardQuoted_subset _ _ c0 hc0 with h | h
  · rcases wildcardQuoted_subset _ _ c0 h with h' | h'
    · exact wildcardDigits_no_digit false q.data c0 h'
    · rw [h']
      decide
  · rw [h]
    decide

theorem mem_insertByCountDesc (p x : String × Nat) (l : List (String × Nat)) :
    x ∈ insertByCountDesc p l ↔ x = p ∨ x ∈ l := by
  induction l with
  | nil => simp [insertByCountDesc]
  | cons q qs ih =>
    unfold insertByCountDesc
    by_cases h : p.2 ≤ q.2
    · rw [if_pos h]
      simp only [List.mem_cons, ih]
      tauto
    · rw [if_neg h]
      simp only [List.mem_cons]

theorem sorted_insertByCountDesc (p : String × Nat) (l : List (String × Nat))
    (h : SortedByCountDesc l) : SortedByCountDesc (insertByCountDesc p l) := by
  unfold SortedByCountDesc at *
  induction l with
  | nil => simp [insertByCountDesc]
  | cons q qs ih =>
    rw [List.pairwise_cons] at h
    obtain ⟨h1, h2⟩ := h
    unfold insertByCountDesc
    by_cases hpq : p.2 ≤ q.2
    · rw [if_pos hpq, List.pairwise_cons]
      refine ⟨?_, ih h2⟩
      intro b hb
      rcases (mem_insertByCountDesc p b qs).mp hb with rfl | hb'
      · exact hpq
      · exact h1 b hb'
    · rw [if_neg hpq, List.pairwise_cons]
      refine ⟨?_, ?_⟩
      · intro b hb
        rcases List.mem_cons.mp hb with rfl | hb'
        · omega
        · have := h1 b hb'
          omega
      · rw [List.pairwise_cons]
        exact ⟨h1, h2⟩

theorem mem_sortByCountDesc (l : List (String × Nat)) (x : String × Nat) :
    x ∈ sortByCountDesc l ↔ x ∈ l := by
  induction l with
  | nil => simp [sortByCountDesc]
  | cons a as ih =>
    show x ∈ insertByCountDesc a (sortByCountDesc as) ↔ _
    rw [mem_insertByCountDesc, ih]
    simp [List.mem_cons]

theorem sorted_sortByCountDesc (l : List (String × Nat)) :
    SortedByCountDesc (sortByCountDesc l) := by
  induction l with
  | nil => exact List.Pairwise.nil
  | cons a as ih =>
    exact sorted_insertByCountDesc a (sortByCountDesc as) ih

end N1QueryDetector

/-- C9: getPatterns returns exactly the normalized shapes whose
current-window count strictly exceeds the threshold, as (shape, count)
pairs sorted by count descending, and returns the counter map itself
untouched; trackQuery increments the counter of the normalized shape of its
argument (and no other counter), and normalization leaves no numeric
literal (no digit survives) and no upper-case letter in the shape, as the
concrete example evaluation also shows. -/
theorem n1_detector_patterns_and_tracking (m : List (String × Nat)) (q : String) :
    (∀ s c, (s, c) ∈ (N1QueryDetector.getPatterns m).1 ↔
      ((s, c) ∈ m ∧ N1QueryDetector.threshold < c)) ∧
    N1QueryDetector.SortedByCountDesc (N1QueryDetector.getPatterns m).1 ∧
    (N1QueryDetector.getPatterns m).2 = m ∧
    alookup (N1QueryDetector.normalizeQuery q) (N1QueryDetector.trackQuery m q) =
      some ((alookup (N1QueryDetector.normalizeQuery q) m).getD 0 + 1) ∧
    (∀ s, s ≠ N1QueryDetector.normalizeQuery q →
      alookup s (N1QueryDetector.trackQuery m q) = alookup s m) ∧
    (∀ c ∈ (N1QueryDetector.normalizeQuery q).data,
      c.isDigit = false ∧ c.isUpper = false) ∧
    N1QueryDetector.normalizeQuery
      ("SELECT name FROM users WHERE id = 42 AND city = " ++
        String.mk [Char.ofNat 39, 'P', 'a', 'r', 'i', 's', Char.ofNat 39]) =
      "select name from users where id = ? and city = ?" := by
  refine ⟨?_, ?_, rfl, ?_, ?_, N1QueryDetector.normalizeQuery_no_digit_no_upper q, ?_⟩
  · intro s c
    show (s, c) ∈ N1QueryDetector.sortByCountDesc _ ↔ _
    rw [N1QueryDetector.mem_sortByCountDesc, List.mem_filter]
    simp [N1QueryDetector.threshold]
  · exact N1QueryDetector.sorted_sortByCountDesc _
  · exact alookup_aset_self _ _ m
  · intro s hs
    exact alookup_aset_ne hs _ m
  · decide

/-- Witness for C9: tracking the query AB 12 in the map x maps to 6. -/
theorem n1_detector_patterns_and_tracking_witness :
    (("x", 6) ∈ (N1QueryDetector.getPatterns [("x", 6), ("y", 3)]).1 ↔
      (("x", 6) ∈ [("x", 6), ("y", 3)] ∧ N1QueryDetector.threshold < 6)) ∧
    (alookup (N1QueryDetector.normalizeQuery "AB 12")
      (N1QueryDetector.trackQuery [("x", 6)] "AB 12") =
      some ((alookup (N1QueryDetector.normalizeQuery "AB 12") [("x", 6)]).getD 0 + 1)) ∧
    (alookup "zz" (N1QueryDetector.trackQuery [("x", 6)] "AB 12") =
      alookup "zz" [("x", 6)]) ∧
    (Char.isDigit 'a' = false ∧ Char.isUpper 'a' = false) :=
  ⟨(n1_detector_patterns_and_tracking [("x", 6), ("y", 3)] "AB 12").1 "x" 6,
   (n1_detector_patterns_and_tracking [("x", 6)] "AB 12").2.2.2.1,
   (n1_detector_patterns_and_tracking [("x", 6)] "AB 12").2.2.2.2.1 "zz" (by decide),
   (n1_detector_patterns_and_tracking [("x", 6)] "AB 12").2.2.2.2.2.1 'a' (by decide)⟩

/-! ## Claim C10: withCache on non-GET requests -/

/-- C10: for every request whose method is not GET, the withCache wrapper
returns exactly what the underlying handler returns and leaves the cache
state — entries, tag sets and every statistic — untouched: no cache read
and no cache write happens. -/
theorem withCache_non_get_passthrough (cfgTtl : Option Int)
    (handler : NextRequest → NextResponse) (opts : CacheMiddlewareOptions)
    (req : NextRequest) (st : RedisState) (now : Int)
    (h : req.method ≠ "GET") :
    withCache cfgTtl handler opts req st now = (handler req, st) := by
  unfold withCache
  rw [if_pos h]

/-- Witness for C10: a POST request against a non-empty cache. -/
theorem withCache_non_get_passthrough_witness :
    withCache none (fun _ => ⟨201, "created", none⟩) {}
      ⟨"POST", "/api/x", ""⟩ ⟨[("k", "v", 10)], [("tag:g", ["k"])], 1, 2, 3, 4, 5⟩ 0 =
      (⟨201, "created", none⟩,
        ⟨[("k", "v", 10)], [("tag:g", ["k"])], 1, 2, 3, 4, 5⟩) :=
  withCache_non_get_passthrough none (fun _ => ⟨201, "created", none⟩) {}
    ⟨"POST", "/api/x", ""⟩ ⟨[("k", "v", 10)], [("tag:g", ["k"])], 1, 2, 3, 4, 5⟩ 0
    (by decide)

end Spec2Proof
